import Mathlib

/-!
Verification of the retrieval pipeline in `src/app/api/answer/route.ts`
(repository `mini-motorDeIA`).

The TypeScript source is shallowly embedded as follows.

* JavaScript strings are modelled as `List Char`; `String.prototype.split`,
  `trim`, `substring`, `length` and concatenation become the corresponding
  list operations defined below.
* JavaScript numbers are modelled as `ℚ`.  `Math.sqrt` is irrational on most
  rationals, so it is passed as an explicit function parameter `sqrt`;
  theorems that need facts about it state them as hypotheses (for example
  `sqrt 0 = 0`).
* A JavaScript arithmetic result that is not a finite number (`NaN` or
  `±Infinity`, e.g. from a division by zero) is modelled as `none` in
  `Option ℚ`.
* I/O (the `data` directory, the embedding service, `Math.random`,
  `Date.now`) is modelled by explicit parameters: the list of documents,
  an oracle for the service outcome of each call, a rational stream for the
  random generator, and an integer for the current time.
* The module-level mutable `cachedData` becomes explicit state passing:
  `getEmbeddings` receives the previous cache value and returns the new one.
* `Array.prototype.sort` is required by the ECMAScript specification to be
  stable; for a consistent comparator the stable sorted permutation is
  unique, so the sort is modelled by a stable insertion sort
  (`stableSortBy`).  A comparator call whose result is `NaN` is treated by
  the specification as `0` (a tie), which `scoreGe` reproduces by returning
  `true` whenever either score is undefined.

The file follows the second (latest) revision of `route.ts` contained in the
repository snapshot, whose context assembler joins the raw chunk texts with a
blank line and no source labels.
-/

namespace MiniMotor

/-- Whitespace test used to model `String.prototype.trim`: the characters
that actually occur at line boundaries in this pipeline (space, newline,
tab, carriage return). -/
def isWs (c : Char) : Bool :=
  c = ' ' || c = '\n' || c = '\t' || c = '\r'

/-- Model of `s.trim()`: drop leading and trailing whitespace. -/
def trim (l : List Char) : List Char :=
  ((l.dropWhile isWs).reverse.dropWhile isWs).reverse

/-- Model of `content.split('\n')`.  As in JavaScript, splitting the empty
string yields one empty field: `splitOnNl [] = [[]]`.  A newline opens a
new leading empty field; any other character is prepended to the first
field of the split of the remainder (which is never empty). -/
def splitOnNl : List Char → List (List Char)
  | [] => [[]]
  | c :: rest =>
    if c = '\n' then [] :: splitOnNl rest
    else (c :: (splitOnNl rest).headD []) :: (splitOnNl rest).tail

/-- A text chunk, from the `TextChunk` interface of `route.ts`:
text, source file name, and an optional embedding vector. -/
structure TextChunk where
  text : List Char
  source : List Char
  embedding : Option (List ℚ)
  deriving Repr, DecidableEq

/-- The chunking loop of `loadAndChunkFiles`, for one document: iterate the
lines keeping an accumulator `cur`; when appending a line would make the
accumulator longer than 800 characters, flush the trimmed accumulator (if
non-empty) and restart from that line, otherwise append the line preceded by
a newline.  After the last line the trimmed accumulator is flushed if
non-empty. -/
def chunkLoop : List (List Char) → List Char → List (List Char) → List (List Char)
  | [], cur, acc =>
    if trim cur ≠ [] then acc ++ [trim cur] else acc
  | line :: rest, cur, acc =>
    if cur.length + line.length > 800 then
      chunkLoop rest line (if trim cur ≠ [] then acc ++ [trim cur] else acc)
    else
      chunkLoop rest (cur ++ '\n' :: line) acc

/-- Chunk one document's content: split on newlines and run the
accumulator loop of `loadAndChunkFiles`. -/
def chunkContent (content : List Char) : List (List Char) :=
  chunkLoop (splitOnNl content) [] []

/-- Model of `loadAndChunkFiles`: the directory listing and file reads are
I/O, so the documents are passed in as `(name, content)` pairs; each
document is chunked and every chunk is tagged with its source name with no
embedding yet.  (The `.txt`/`.md` extension filter only selects which
documents are in this list.) -/
def loadAndChunkFiles (files : List (List Char × List Char)) : List TextChunk :=
  files.flatMap fun f => (chunkContent f.2).map fun t => ⟨t, f.1, none⟩

/-- Model of `a.reduce((sum, val, i) => sum + val * b[i], 0)` for
equal-length vectors (the only case the similarity contract covers). -/
def dotProduct (a b : List ℚ) : ℚ :=
  (a.zip b).foldl (fun s p => s + p.1 * p.2) 0

/-- Sum of squares of a vector, the argument of `Math.sqrt` in the
magnitude computation of `cosineSimilarity`. -/
def normSq (a : List ℚ) : ℚ :=
  a.foldl (fun s v => s + v * v) 0

/-- Model of `cosineSimilarity` from `route.ts`: dot product divided by the
product of the Euclidean magnitudes.  `Math.sqrt` is the parameter `sqrt`.
When the denominator is zero the JavaScript division produces `NaN` or
`±Infinity`; that non-finite outcome is modelled as `none`. -/
def cosineSimilarity (sqrt : ℚ → ℚ) (a b : List ℚ) : Option ℚ :=
  let magA := sqrt (normSq a)
  let magB := sqrt (normSq b)
  if magA * magB = 0 then none else some (dotProduct a b / (magA * magB))

/-- Model of the fallback `Array(768).fill(0).map(() => Math.random())`:
768 successive draws from the random stream `r`. -/
def fallbackVec (r : ℕ → ℚ) : List ℚ :=
  (List.range 768).map r

/-- Outcome of one embedding call: the service result when it succeeds,
otherwise the random fallback vector (the `catch` branch). -/
def embedOne (svcResult : Option (List ℚ)) (r : ℕ → ℚ) : List ℚ :=
  match svcResult with
  | some v => v
  | none => fallbackVec r

/-- The loop of `generateEmbeddings`, carrying the index of the current
call.  `svc i t` is the service outcome for the call at index `i` with input
text `t` (`none` models a thrown error); `rng i` is the random stream
consumed by the fallback of call `i`. -/
def genEmbAux (svc : ℕ → List Char → Option (List ℚ)) (rng : ℕ → ℕ → ℚ) :
    ℕ → List TextChunk → List TextChunk
  | _, [] => []
  | i, c :: rest =>
    { c with embedding := some (embedOne (svc i c.text) (rng i)) } ::
      genEmbAux svc rng (i + 1) rest

/-- Model of `generateEmbeddings`: embed every chunk in order, substituting
the random fallback vector whenever the service call fails. -/
def generateEmbeddings (svc : ℕ → List Char → Option (List ℚ))
    (rng : ℕ → ℕ → ℚ) (chunks : List TextChunk) : List TextChunk :=
  genEmbAux svc rng 0 chunks

/-- Model of the question-embedding step of `POST`: the service result when
the call succeeds, otherwise the random fallback vector of length 768. -/
def embedQuestion (svcResult : Option (List ℚ)) (r : ℕ → ℚ) : List ℚ :=
  embedOne svcResult r

/-- The cache record, from the `CachedEmbeddings` interface:
chunks plus creation timestamp (milliseconds, as from `Date.now()`). -/
structure CachedEmbeddings where
  chunks : List TextChunk
  timestamp : ℤ
  deriving Repr, DecidableEq

/-- Result of one `getEmbeddings` call: the returned chunks, the new value
of the module-level `cachedData`, and whether a rebuild happened (the
`rebuilt` flag is bookkeeping that records whether the I/O path ran). -/
structure CacheResult where
  chunks : List TextChunk
  cache : Option CachedEmbeddings
  rebuilt : Bool
  deriving Repr, DecidableEq

/-- Model of `getEmbeddings`: if a cache exists and is younger than
3600000 ms, return it unchanged; otherwise load and chunk the documents,
embed them, and store the result with the current timestamp. -/
def getEmbeddings (st : Option CachedEmbeddings) (now : ℤ)
    (files : List (List Char × List Char))
    (svc : ℕ → List Char → Option (List ℚ)) (rng : ℕ → ℕ → ℚ) : CacheResult :=
  match st with
  | some c =>
    if now - c.timestamp < 3600000 then
      ⟨c.chunks, some c, false⟩
    else
      let cs := generateEmbeddings svc rng (loadAndChunkFiles files)
      ⟨cs, some ⟨cs, now⟩, true⟩
  | none =>
    let cs := generateEmbeddings svc rng (loadAndChunkFiles files)
    ⟨cs, some ⟨cs, now⟩, true⟩

/-- A scored chunk, as built by the ranking `map` in `POST`: the spread
`{...chunk, score}` keeps text, source and embedding and adds the score.
The score is `Option ℚ`: `none` models a `NaN` similarity. -/
structure ScoredChunk where
  text : List Char
  source : List Char
  embedding : List ℚ
  score : Option ℚ
  deriving Repr, DecidableEq

/-- Comparator order used by `sort((a, b) => b.score - a.score)`:
`scoreGe a b` holds when the comparator allows `a` before `b`, that is when
`b.score - a.score ≤ 0`.  When either score is `NaN` the comparator
evaluates to `NaN`, which the ECMAScript specification treats as `0`
(a tie), hence `true`. -/
def scoreGe : Option ℚ → Option ℚ → Bool
  | some x, some y => decide (y ≤ x)
  | _, _ => true

/-- Scoring step of `POST`: each chunk is scored against the question
embedding, reading `chunk.embedding!`.  A chunk with an absent embedding
makes the JavaScript expression throw a `TypeError`; that outcome is
modelled as an overall `none`. -/
def scoreAll (sqrt : ℚ → ℚ) (q : List ℚ) : List TextChunk → Option (List ScoredChunk)
  | [] => some []
  | c :: rest =>
    match c.embedding, scoreAll sqrt q rest with
    | some e, some tail => some (⟨c.text, c.source, e, cosineSimilarity sqrt q e⟩ :: tail)
    | _, _ => none

/-- Stable insertion of `x` into `l`: `x` is placed before the first
element `y` with `ge x y`; on a comparator tie the inserted (originally
earlier) element therefore comes first. -/
def insertStable (ge : α → α → Bool) (x : α) : List α → List α
  | [] => [x]
  | y :: ys => if ge x y then x :: y :: ys else y :: insertStable ge x ys

/-- Stable sort by the comparator-derived order `ge`.  The ECMAScript
specification pins `Array.prototype.sort` down to the unique stable sorted
permutation (for a consistent comparator), which this insertion sort
produces. -/
def stableSortBy (ge : α → α → Bool) : List α → List α
  | [] => []
  | x :: xs => insertStable ge x (stableSortBy ge xs)

/-- Ranking step of `POST` after scoring: sort descending by score with the
stable sort and keep the top 3 (`slice(0, 3)`). -/
def rankList (scored : List ScoredChunk) : List ScoredChunk :=
  (stableSortBy (fun a b => scoreGe a.score b.score) scored).take 3

/-- Position-tagging helper used only to state stability: pair every
element with its index, starting at `n`. -/
def tagFrom (n : ℕ) : List α → List (ℕ × α)
  | [] => []
  | x :: xs => (n, x) :: tagFrom (n + 1) xs

/-- The ranking of `rankList` carried out on position-tagged scored chunks;
the comparator reads only the score, so this runs the same comparisons as
`rankList` while remembering each chunk's original corpus position. -/
def rankTagged (scored : List ScoredChunk) : List (ℕ × ScoredChunk) :=
  (stableSortBy (fun a b => scoreGe a.2.score b.2.score) (tagFrom 0 scored)).take 3

/-- Model of `array.join(sep)`. -/
def joinSep (sep : List Char) : List (List Char) → List Char
  | [] => []
  | [t] => t
  | t :: rest => t ++ sep ++ joinSep sep rest

/-- Context assembly of `POST`: `scoredChunks.map(chunk => chunk.text).join('\n\n')` —
the raw texts in ranked order, separated by a blank line. -/
def buildContext (ranked : List ScoredChunk) : List Char :=
  joinSep ['\n', '\n'] (ranked.map fun c => c.text)

/-- Modelled from the spec: the context the assembler must produce —
each ranked chunk's raw text, in order, separated by a blank line
(two newline characters), and nothing else. -/
def contextSpec : List (List Char) → List Char
  | [] => []
  | [t] => t
  | t :: rest => t ++ '\n' :: '\n' :: contextSpec rest

/-- A caller-facing citation, as built by `POST`: source name, text
excerpt, relevance score. -/
structure Citation where
  source : List Char
  text : List Char
  relevance : Option ℚ
  deriving Repr, DecidableEq

/-- Excerpt construction of `POST`:
`chunk.text.substring(0, 200) + '...'`. -/
def previewText (t : List Char) : List Char :=
  t.take 200 ++ ['.', '.', '.']

/-- Citation construction of `POST`. -/
def mkCitation (c : ScoredChunk) : Citation :=
  ⟨c.source, previewText c.text, c.score⟩

/-! ### Similarity (C1) -/

/-- C1 (code bug exhibit): at the failing input `a = [0]`, `b = [1]` — equal
lengths, `a` of zero norm — `cosineSimilarity` divides by zero, so the
JavaScript result is non-finite (`NaN`), modelled `none`; no fixed sentinel
score such as `0` is produced.  The only fact about `Math.sqrt` used is
`sqrt 0 = 0`. -/
theorem c1_zero_norm_similarity_not_sentinel (sqrt : ℚ → ℚ) (h : sqrt 0 = 0) :
    cosineSimilarity sqrt [(0 : ℚ)] [(1 : ℚ)] = none ∧
      ∀ sentinel : ℚ, cosineSimilarity sqrt [(0 : ℚ)] [(1 : ℚ)] ≠ some sentinel := by
  have hz : cosineSimilarity sqrt [(0 : ℚ)] [(1 : ℚ)] = none := by
    simp [cosineSimilarity, normSq, h]
  exact ⟨hz, fun sentinel hs => by rw [hz] at hs; exact Option.noConfusion hs⟩

/-- Closed instance of `c1_zero_norm_similarity_not_sentinel` with
`sqrt` instantiated by the identity function. -/
theorem c1_zero_norm_similarity_not_sentinel_witness :
    cosineSimilarity (fun x : ℚ => x) [(0 : ℚ)] [(1 : ℚ)] = none :=
  (c1_zero_norm_similarity_not_sentinel (fun x => x) rfl).1

/-! ### Embedding fallback (C2) -/

/-- C2 (counterexample): the fallback vector synthesized on service failure
is read off `Math.random`, so two runs on the same input (here: the same
failing call) with different random streams produce different vectors —
the fallback is not deterministic. -/
theorem c2_fallback_not_deterministic :
    embedQuestion none (fun _ => (0 : ℚ)) ≠ embedQuestion none (fun _ => (1 : ℚ)) := by
  intro h
  have h0 := congrArg (fun l => l[0]?) h
  simp only [embedQuestion, embedOne, fallbackVec, List.getElem?_map,
    List.getElem?_range (by norm_num : (0 : ℕ) < 768)] at h0
  simp at h0

/-- C2 (amended): when the embedding service call fails the embedder
returns the random fallback vector, which always has the documented fixed
length 768, and the failure is not propagated (a successful service vector
is returned unchanged; a failed call still returns a vector). -/
theorem c2_fallback_length_768 :
    ∀ r : ℕ → ℚ, (embedQuestion none r).length = 768 ∧
      ∀ v : List ℚ, embedQuestion (some v) r = v := by
  intro r
  constructor
  · simp [embedQuestion, embedOne, fallbackVec]
  · intro v; rfl

/-! ### Citations (C9) -/

/-- C9 (counterexample): a chunk whose text has 2 ≤ 200 characters still
gets the truncation marker: the produced excerpt is `"hi..."`, not the bare
text `"hi"` the claim requires for texts of at most 200 characters. -/
theorem c9_marker_appended_below_limit :
    (['h', 'i'] : List Char).length ≤ 200 ∧
      (mkCitation ⟨['h', 'i'], ['s'], [], some 1⟩).text = ['h', 'i', '.', '.', '.'] ∧
      (mkCitation ⟨['h', 'i'], ['s'], [], some 1⟩).text ≠ ['h', 'i'] := by
  refine ⟨by decide, rfl, by decide⟩

/-- C9 (amended): every citation carries the chunk's source and score, and
its excerpt is the chunk's text truncated to the 200-character preview
length with the marker `"..."` appended unconditionally — also when the
text has 200 or fewer characters; the excerpt length is therefore always
`min 200 (text length) + 3`. -/
theorem c9_citation_preview :
    ∀ c : ScoredChunk,
      (mkCitation c).source = c.source ∧
      (mkCitation c).relevance = c.score ∧
      (mkCitation c).text = c.text.take 200 ++ ['.', '.', '.'] ∧
      (mkCitation c).text.length = min 200 c.text.length + 3 := by
  intro c
  refine ⟨rfl, rfl, rfl, ?_⟩
  simp [mkCitation, previewText]

/-! ### Context assembly (C4) -/

lemma joinSep_blank_eq_contextSpec (ts : List (List Char)) :
    joinSep ['\n', '\n'] ts = contextSpec ts := by
  induction ts with
  | nil => rfl
  | cons t rest ih =>
    cases rest with
    | nil => rfl
    | cons t' rest' => simp [joinSep, contextSpec, ← ih]

/-- C4: the context handed to the generation call is exactly each ranked
chunk's raw text, in ranked order, separated by a blank line (two newline
characters); it is a function of the texts alone, so no source name or
label is embedded in it. -/
theorem c4_context_assembly :
    (∀ ranked : List ScoredChunk,
      buildContext ranked = contextSpec (ranked.map fun c => c.text)) ∧
    ∀ r₁ r₂ : List ScoredChunk,
      (r₁.map fun c => c.text) = (r₂.map fun c => c.text) →
      buildContext r₁ = buildContext r₂ := by
  have key : ∀ ranked : List ScoredChunk,
      buildContext ranked = contextSpec (ranked.map fun c => c.text) := by
    intro ranked
    exact joinSep_blank_eq_contextSpec _
  exact ⟨key, fun r₁ r₂ h => by rw [key r₁, key r₂, h]⟩

/-- Closed instance of `c4_context_assembly`: two rankings with the same
texts but different sources, embeddings and scores yield the same context. -/
theorem c4_context_assembly_witness :
    buildContext [⟨['a'], ['s'], [], none⟩] = buildContext [⟨['a'], ['t'], [1], some 0⟩] :=
  c4_context_assembly.2 _ _ rfl

/-! ### Cache freshness (C6) -/

/-- C6: if a snapshot exists and its age is below the 3600000 ms freshness
window, `getEmbeddings` returns its chunks with the cache state unchanged
and no rebuild (the result does not depend on the documents, the embedding
service, or the random stream); otherwise it rebuilds from the documents
and replaces the snapshot wholesale with the fresh timestamp `now`. -/
theorem c6_cache_freshness (st : Option CachedEmbeddings) (now : ℤ)
    (files : List (List Char × List Char))
    (svc : ℕ → List Char → Option (List ℚ)) (rng : ℕ → ℕ → ℚ) :
    (∀ c, st = some c → now - c.timestamp < 3600000 →
      getEmbeddings st now files svc rng = ⟨c.chunks, st, false⟩) ∧
    ((st = none ∨ ∃ c, st = some c ∧ 3600000 ≤ now - c.timestamp) →
      getEmbeddings st now files svc rng =
        ⟨generateEmbeddings svc rng (loadAndChunkFiles files),
          some ⟨generateEmbeddings svc rng (loadAndChunkFiles files), now⟩, true⟩) := by
  constructor
  · rintro c rfl hc
    simp [getEmbeddings, if_pos hc]
  · rintro (rfl | ⟨c, rfl, hc⟩)
    · rfl
    · simp [getEmbeddings, if_neg (not_lt.mpr hc)]

/-- Closed instance of `c6_cache_freshness`: a snapshot of age 5 ms is
returned unchanged with no rebuild, whatever the documents would contain. -/
theorem c6_cache_freshness_witness :
    getEmbeddings (some ⟨[], 0⟩) 5 [(['f'], ['x'])] (fun _ _ => none) (fun _ _ => 0) =
      ⟨[], some ⟨[], 0⟩, false⟩ :=
  (c6_cache_freshness (some ⟨[], 0⟩) 5 [(['f'], ['x'])] (fun _ _ => none) (fun _ _ => 0)).1
    ⟨[], 0⟩ rfl (by decide)

/-! ### Corpus embedding (C8, C10) -/

lemma genEmbAux_getElem? (svc : ℕ → List Char → Option (List ℚ)) (rng : ℕ → ℕ → ℚ) :
    ∀ (chunks : List TextChunk) (n i : ℕ),
      (genEmbAux svc rng n chunks)[i]? =
        (chunks[i]?).map fun c =>
          { c with embedding := some (embedOne (svc (n + i) c.text) (rng (n + i))) } := by
  intro chunks
  induction chunks with
  | nil => intro n i; simp [genEmbAux]
  | cons c rest ih =>
    intro n i
    cases i with
    | zero => simp [genEmbAux]
    | succ j =>
      simp only [genEmbAux, List.getElem?_cons_succ]
      rw [ih (n + 1) j]
      have harith : n + 1 + j = n + (j + 1) := by omega
      rw [harith]

lemma genEmbAux_length (svc : ℕ → List Char → Option (List ℚ)) (rng : ℕ → ℕ → ℚ) :
    ∀ (chunks : List TextChunk) (n : ℕ),
      (genEmbAux svc rng n chunks).length = chunks.length := by
  intro chunks
  induction chunks with
  | nil => intro n; rfl
  | cons c rest ih => intro n; simp [genEmbAux, ih]

lemma genEmbAux_embedded (svc : ℕ → List Char → Option (List ℚ)) (rng : ℕ → ℕ → ℚ) :
    ∀ (chunks : List TextChunk) (n : ℕ),
      ∀ c ∈ genEmbAux svc rng n chunks, c.embedding.isSome := by
  intro chunks
  induction chunks with
  | nil => intro n c hc; simp [genEmbAux] at hc
  | cons d rest ih =>
    intro n c hc
    simp only [genEmbAux, List.mem_cons] at hc
    rcases hc with rfl | hc
    · rfl
    · exact ih (n + 1) c hc

/-- C8: `generateEmbeddings` processes every chunk: the output has the same
length, chunk `i` keeps its text and source and always carries an embedding
(so an embedding-service failure never surfaces as an error), and the
result at position `i` is determined by the service outcome and random
stream of call `i` alone — a failure at any other position cannot abort or
change the embedding of chunk `i`, before or after it. -/
theorem c8_embedding_isolation (svc svc' : ℕ → List Char → Option (List ℚ))
    (rng rng' : ℕ → ℕ → ℚ) (chunks : List TextChunk) (i : ℕ)
    (hsvc : svc i = svc' i) (hrng : rng i = rng' i) :
    (generateEmbeddings svc rng chunks).length = chunks.length ∧
    (∀ c ∈ generateEmbeddings svc rng chunks, c.embedding.isSome) ∧
    ((generateEmbeddings svc rng chunks)[i]?).map (fun c => (c.text, c.source)) =
      (chunks[i]?).map (fun c => (c.text, c.source)) ∧
    (generateEmbeddings svc rng chunks)[i]? = (generateEmbeddings svc' rng' chunks)[i]? := by
  refine ⟨genEmbAux_length svc rng chunks 0, genEmbAux_embedded svc rng chunks 0, ?_, ?_⟩
  · rw [generateEmbeddings, genEmbAux_getElem?]
    cases chunks[i]? <;> rfl
  · rw [generateEmbeddings, generateEmbeddings, genEmbAux_getElem?, genEmbAux_getElem?]
    simp only [Nat.zero_add, hsvc, hrng]

/-- Closed instance of `c8_embedding_isolation`: a service failing on every
call except a successful call elsewhere agrees at call 0 with a service
failing everywhere, and chunk 0 of a two-chunk corpus is embedded
identically under both. -/
theorem c8_embedding_isolation_witness :
    (generateEmbeddings (fun _ _ => none) (fun _ _ => 0)
        [⟨['a'], ['s'], none⟩, ⟨['b'], ['s'], none⟩]).length = 2 ∧
    (∀ c ∈ generateEmbeddings (fun _ _ => none) (fun _ _ => 0)
        [⟨['a'], ['s'], none⟩, ⟨['b'], ['s'], none⟩], c.embedding.isSome) ∧
    ((generateEmbeddings (fun _ _ => none) (fun _ _ => 0)
        [⟨['a'], ['s'], none⟩, ⟨['b'], ['s'], none⟩])[0]?).map (fun c => (c.text, c.source)) =
      (([⟨['a'], ['s'], none⟩, ⟨['b'], ['s'], none⟩] :
        List TextChunk)[0]?).map (fun c => (c.text, c.source)) ∧
    (generateEmbeddings (fun _ _ => none) (fun _ _ => 0)
        [⟨['a'], ['s'], none⟩, ⟨['b'], ['s'], none⟩])[0]? =
      (generateEmbeddings (fun j _ => if j = 0 then none else some [])
        (fun _ _ => 0) [⟨['a'], ['s'], none⟩, ⟨['b'], ['s'], none⟩])[0]? :=
  c8_embedding_isolation (fun _ _ => none) (fun j _ => if j = 0 then none else some [])
    (fun _ _ => 0) (fun _ _ => 0) [⟨['a'], ['s'], none⟩, ⟨['b'], ['s'], none⟩] 0 rfl rfl

lemma scoreAll_isSome_of_embedded (sqrt : ℚ → ℚ) (q : List ℚ) :
    ∀ chunks : List TextChunk, (∀ c ∈ chunks, c.embedding.isSome) →
      (scoreAll sqrt q chunks).isSome := by
  intro chunks
  induction chunks with
  | nil => intro _; rfl
  | cons c rest ih =>
    intro h
    have hc : c.embedding.isSome := h c (List.mem_cons_self c rest)
    obtain ⟨e, he⟩ := Option.isSome_iff_exists.mp hc
    have hr := ih fun d hd => h d (List.mem_cons_of_mem c hd)
    obtain ⟨tail, ht⟩ := Option.isSome_iff_exists.mp hr
    simp [scoreAll, he, ht]

/-- C10: starting from a cache state whose snapshot (if any) holds only
chunks with a defined embedding — as the initial `null` state does —
every chunk returned by `getEmbeddings` has a defined embedding, the
scoring step's unchecked `chunk.embedding!` access therefore never hits an
absent value (`scoreAll` succeeds), and the new cache state satisfies the
same invariant. -/
theorem c10_embeddings_always_defined (st : Option CachedEmbeddings) (now : ℤ)
    (files : List (List Char × List Char))
    (svc : ℕ → List Char → Option (List ℚ)) (rng : ℕ → ℕ → ℚ)
    (sqrt : ℚ → ℚ) (q : List ℚ)
    (hinv : ∀ cc, st = some cc → ∀ c ∈ cc.chunks, c.embedding.isSome) :
    (∀ c ∈ (getEmbeddings st now files svc rng).chunks, c.embedding.isSome) ∧
    (scoreAll sqrt q (getEmbeddings st now files svc rng).chunks).isSome ∧
    (∀ cc, (getEmbeddings st now files svc rng).cache = some cc →
      ∀ c ∈ cc.chunks, c.embedding.isSome) := by
  have hchunks : ∀ c ∈ (getEmbeddings st now files svc rng).chunks, c.embedding.isSome := by
    cases st with
    | none => exact genEmbAux_embedded svc rng _ 0
    | some cc =>
      by_cases hfresh : now - cc.timestamp < 3600000
      · simpa [getEmbeddings, if_pos hfresh] using hinv cc rfl
      · simpa [getEmbeddings, if_neg hfresh] using genEmbAux_embedded svc rng _ 0
  refine ⟨hchunks, scoreAll_isSome_of_embedded sqrt q _ hchunks, ?_⟩
  cases st with
  | none =>
    rintro cc hcc
    simp only [getEmbeddings, Option.some.injEq] at hcc
    subst hcc
    exact genEmbAux_embedded svc rng _ 0
  | some c =>
    by_cases hfresh : now - c.timestamp < 3600000
    · rintro cc hcc
      simp only [getEmbeddings, if_pos hfresh, Option.some.injEq] at hcc
      subst hcc
      exact hinv c rfl
    · rintro cc hcc
      simp only [getEmbeddings, if_neg hfresh, Option.some.injEq] at hcc
      subst hcc
      exact genEmbAux_embedded svc rng _ 0

/-- Closed instance of `c10_embeddings_always_defined` at the initial
(empty) cache state with a one-document corpus and an always-failing
service. -/
theorem c10_embeddings_always_defined_witness :
    (∀ c ∈ (getEmbeddings none 0 [(['f'], ['a'])] (fun _ _ => none) (fun _ _ => 0)).chunks,
      c.embedding.isSome) ∧
    (scoreAll (fun x => x) []
      (getEmbeddings none 0 [(['f'], ['a'])] (fun _ _ => none) (fun _ _ => 0)).chunks).isSome ∧
    (∀ cc, (getEmbeddings none 0 [(['f'], ['a'])] (fun _ _ => none) (fun _ _ => 0)).cache =
        some cc → ∀ c ∈ cc.chunks, c.embedding.isSome) :=
  c10_embeddings_always_defined none 0 [(['f'], ['a'])] (fun _ _ => none) (fun _ _ => 0)
    (fun x => x) [] (fun _ h => nomatch h)

/-! ### Chunker bound (C3) -/

lemma trim_length_le (l : List Char) : (trim l).length ≤ l.length := by
  rw [trim, List.length_reverse]
  calc ((l.dropWhile isWs).reverse.dropWhile isWs).length
      ≤ (l.dropWhile isWs).reverse.length := (List.dropWhile_sublist _).length_le
    _ = (l.dropWhile isWs).length := List.length_reverse _
    _ ≤ l.length := (List.dropWhile_sublist _).length_le

lemma mem_of_mem_trim {c : Char} {l : List Char} (h : c ∈ trim l) : c ∈ l := by
  rw [trim, List.mem_reverse] at h
  have h1 := List.Sublist.mem h (List.dropWhile_sublist isWs)
  rw [List.mem_reverse] at h1
  exact List.Sublist.mem h1 (List.dropWhile_sublist isWs)

lemma splitOnNl_ne_nil (l : List Char) : splitOnNl l ≠ [] := by
  cases l with
  | nil => simp [splitOnNl]
  | cons c rest =>
    rw [splitOnNl]
    by_cases hc : c = '\n'
    · rw [if_pos hc]; exact List.cons_ne_nil _ _
    · rw [if_neg hc]; exact List.cons_ne_nil _ _

lemma splitOnNl_nl_free : ∀ l : List Char, ∀ s ∈ splitOnNl l, '\n' ∉ s := by
  intro l
  induction l with
  | nil =>
    intro s hs
    simp only [splitOnNl, List.mem_singleton] at hs
    simp [hs]
  | cons c rest ih =>
    intro s hs
    rw [splitOnNl] at hs
    by_cases hc : c = '\n'
    · rw [if_pos hc] at hs
      rcases List.mem_cons.mp hs with rfl | hs'
      · simp
      · exact ih s hs'
    · rw [if_neg hc] at hs
      cases hsp : splitOnNl rest with
      | nil => exact absurd hsp (splitOnNl_ne_nil rest)
      | cons s' ss =>
        rw [hsp, List.headD_cons, List.tail_cons] at hs
        rcases List.mem_cons.mp hs with rfl | hs'
        · intro hmem
          rcases List.mem_cons.mp hmem with hceq | hmem'
          · exact hc hceq.symm
          · exact ih s' (hsp ▸ List.mem_cons_self s' ss) hmem'
        · exact ih s (hsp ▸ List.mem_cons_of_mem s' hs')

lemma chunkLoop_bound :
    ∀ (lines : List (List Char)) (cur : List Char) (acc : List (List Char)),
      (∀ l ∈ lines, '\n' ∉ l) →
      (cur.length ≤ 801 ∨ '\n' ∉ cur) →
      (∀ c ∈ acc, c.length ≤ 801 ∨ '\n' ∉ c) →
      ∀ c ∈ chunkLoop lines cur acc, c.length ≤ 801 ∨ '\n' ∉ c := by
  have flushOk : ∀ (cur : List Char), (cur.length ≤ 801 ∨ '\n' ∉ cur) →
      (trim cur).length ≤ 801 ∨ '\n' ∉ trim cur := by
    rintro cur (hlen | hnl)
    · exact Or.inl (le_trans (trim_length_le cur) hlen)
    · exact Or.inr fun hmem => hnl (mem_of_mem_trim hmem)
  intro lines
  induction lines with
  | nil =>
    intro cur acc _ hcur hacc c hc
    rw [chunkLoop] at hc
    by_cases ht : trim cur ≠ []
    · rw [if_pos ht] at hc
      rcases List.mem_append.mp hc with hc' | hc'
      · exact hacc c hc'
      · rw [List.mem_singleton] at hc'
        exact hc' ▸ flushOk cur hcur
    · rw [if_neg ht] at hc
      exact hacc c hc
  | cons line rest ih =>
    intro cur acc hlines hcur hacc c hc
    have hline : '\n' ∉ line := hlines line (List.mem_cons_self line rest)
    have hrest : ∀ l ∈ rest, '\n' ∉ l := fun l hl => hlines l (List.mem_cons_of_mem line hl)
    rw [chunkLoop] at hc
    by_cases hbig : cur.length + line.length > 800
    · rw [if_pos hbig] at hc
      refine ih line _ hrest (Or.inr hline) ?_ c hc
      by_cases ht : trim cur ≠ []
      · rw [if_pos ht]
        intro d hd
        rcases List.mem_append.mp hd with hd' | hd'
        · exact hacc d hd'
        · rw [List.mem_singleton] at hd'
          exact hd' ▸ flushOk cur hcur
      · rw [if_neg ht]
        exact hacc
    · rw [if_neg hbig] at hc
      refine ih (cur ++ '\n' :: line) acc hrest (Or.inl ?_) hacc c hc
      have : (cur ++ '\n' :: line).length = cur.length + (line.length + 1) := by
        simp [List.length_append]
      omega

/-- C3 (amended): every chunk produced by the chunker has text length at
most 801 characters — one more than the configured maximum of 800, because
the length check `currentChunk.length + line.length > 800` does not count
the newline separator that the append then inserts — except a chunk
consisting of a single line (no newline in it) that alone exceeds the
bound; there is still no mid-line splitting. -/
theorem c3_chunk_bound (content : List Char) :
    ∀ c ∈ chunkContent content, c.length ≤ 801 ∨ '\n' ∉ c := by
  refine chunkLoop_bound (splitOnNl content) [] [] (splitOnNl_nl_free content)
    (Or.inl (by simp)) ?_
  intro c hc
  simp at hc

/-- Closed instance of `c3_chunk_bound` on the one-character document
`"a"`, whose single chunk is `"a"`. -/
theorem c3_chunk_bound_witness :
    (['a'] : List Char).length ≤ 801 ∨ '\n' ∉ (['a'] : List Char) :=
  c3_chunk_bound ['a'] ['a'] (by decide)

lemma dropWhile_isWs_cons_of_false {a : Char} (h : isWs a = false) (t : List Char) :
    (a :: t).dropWhile isWs = a :: t := by
  simp [List.dropWhile_cons, h]

lemma dropWhile_isWs_eq_self {l : List Char}
    (h : ∀ c, l.head? = some c → isWs c = false) : l.dropWhile isWs = l := by
  cases l with
  | nil => rfl
  | cons a t => exact dropWhile_isWs_cons_of_false (h a rfl) t

lemma trim_eq_self {l : List Char}
    (h1 : ∀ c, l.head? = some c → isWs c = false)
    (h2 : ∀ c, l.reverse.head? = some c → isWs c = false) : trim l = l := by
  rw [trim, dropWhile_isWs_eq_self h1, dropWhile_isWs_eq_self h2, List.reverse_reverse]

lemma trim_cons_nl {l : List Char}
    (h1 : ∀ c, l.head? = some c → isWs c = false)
    (h2 : ∀ c, l.reverse.head? = some c → isWs c = false) : trim ('\n' :: l) = l := by
  rw [trim, show ('\n' :: l).dropWhile isWs = l.dropWhile isWs from by
    simp [List.dropWhile_cons, isWs]]
  rw [dropWhile_isWs_eq_self h1, dropWhile_isWs_eq_self h2, List.reverse_reverse]

lemma nl_notMem_replicate (n : ℕ) (c : Char) (hc : c ≠ '\n') :
    '\n' ∉ List.replicate n c := by
  intro h
  exact hc ((List.eq_of_mem_replicate h).symm)

lemma splitOnNl_single_line {L : List Char} (hL : '\n' ∉ L) : splitOnNl L = [L] := by
  induction L with
  | nil => rfl
  | cons a t ih =>
    have ha : a ≠ '\n' := fun h => hL (h ▸ List.mem_cons_self a t)
    have ht : '\n' ∉ t := fun h => hL (List.mem_cons_of_mem a h)
    rw [splitOnNl, if_neg ha, ih ht, List.headD_cons, List.tail_cons]

lemma splitOnNl_append_line {L : List Char} (hL : '\n' ∉ L) (rest : List Char) :
    splitOnNl (L ++ '\n' :: rest) = L :: splitOnNl rest := by
  induction L with
  | nil =>
    simp only [List.nil_append]
    rw [splitOnNl, if_pos rfl]
  | cons a t ih =>
    have ha : a ≠ '\n' := fun h => hL (h ▸ List.mem_cons_self a t)
    have ht : '\n' ∉ t := fun h => hL (List.mem_cons_of_mem a h)
    rw [List.cons_append, splitOnNl, if_neg ha, ih ht, List.headD_cons, List.tail_cons]

lemma replicate_head_nonWs {n : ℕ} {a : Char} (h : isWs a = false) :
    ∀ c, (List.replicate n a).head? = some c → isWs c = false := by
  intro c hc
  cases n with
  | zero => simp at hc
  | succ m =>
    rw [List.replicate_succ] at hc
    simp only [List.head?_cons, Option.some.injEq] at hc
    exact hc ▸ h

/-- C3 (counterexample): on the three-line document
`"a"*500 ++ "\n" ++ "b"*500 ++ "\n" ++ "c"*300` the chunker emits the
two-line chunk `"b"*500 ++ "\n" ++ "c"*300` of length 801 > 800, so the
claimed 800-character bound fails on a chunk that is not a single line. -/
theorem c3_two_line_chunk_exceeds_bound :
    ∃ c ∈ chunkContent (List.replicate 500 'a' ++
        '\n' :: (List.replicate 500 'b' ++ '\n' :: List.replicate 300 'c')),
      ¬(c.length ≤ 800 ∨ '\n' ∉ c) := by
  have hA : '\n' ∉ List.replicate 500 'a' := nl_notMem_replicate 500 'a' (by decide)
  have hB : '\n' ∉ List.replicate 500 'b' := nl_notMem_replicate 500 'b' (by decide)
  have hC : '\n' ∉ List.replicate 300 'c' := nl_notMem_replicate 300 'c' (by decide)
  have hsplit : splitOnNl (List.replicate 500 'a' ++
      '\n' :: (List.replicate 500 'b' ++ '\n' :: List.replicate 300 'c')) =
      [List.replicate 500 'a', List.replicate 500 'b', List.replicate 300 'c'] := by
    rw [splitOnNl_append_line hA, splitOnNl_append_line hB, splitOnNl_single_line hC]
  have htrimA : trim ('\n' :: List.replicate 500 'a') = List.replicate 500 'a' := by
    refine trim_cons_nl (replicate_head_nonWs (by decide)) ?_
    rw [List.reverse_replicate]
    exact replicate_head_nonWs (by decide)
  have hX : trim (List.replicate 500 'b' ++ '\n' :: List.replicate 300 'c') =
      List.replicate 500 'b' ++ '\n' :: List.replicate 300 'c' := by
    refine trim_eq_self ?_ ?_
    · intro c hc
      rw [show (500 : ℕ) = 499 + 1 by norm_num, List.replicate_succ,
        List.cons_append, List.head?_cons] at hc
      simp only [Option.some.injEq] at hc
      exact hc ▸ (by decide)
    · intro c hc
      rw [List.reverse_append, List.reverse_cons, List.reverse_replicate,
        show (300 : ℕ) = 299 + 1 by norm_num, List.replicate_succ, List.cons_append,
        List.cons_append, List.head?_cons] at hc
      simp only [Option.some.injEq] at hc
      exact hc ▸ (by decide)
  have hlenAB : ('\n' :: List.replicate 500 'a').length + (List.replicate 500 'b').length
      > 800 := by
    simp only [List.length_cons, List.length_replicate]
    omega
  have hAne : List.replicate 500 'a' ≠ [] := by
    intro h0
    have hl := congrArg List.length h0
    simp only [List.length_replicate, List.length_nil] at hl
    omega
  have hXne : List.replicate 500 'b' ++ '\n' :: List.replicate 300 'c' ≠ [] := by
    intro h0
    have hl := congrArg List.length h0
    simp only [List.length_append, List.length_cons, List.length_replicate,
      List.length_nil] at hl
    omega
  have htrace : chunkContent (List.replicate 500 'a' ++
      '\n' :: (List.replicate 500 'b' ++ '\n' :: List.replicate 300 'c')) =
      [List.replicate 500 'a',
       List.replicate 500 'b' ++ '\n' :: List.replicate 300 'c'] := by
    rw [chunkContent, hsplit]
    rw [chunkLoop, if_neg (by
      simp only [List.length_nil, List.length_replicate]
      omega), List.nil_append]
    rw [chunkLoop, if_pos hlenAB, htrimA, if_pos hAne]
    rw [chunkLoop, if_neg (by
      simp only [List.length_replicate]
      omega)]
    rw [chunkLoop, hX, if_pos hXne]
    rfl
  refine ⟨List.replicate 500 'b' ++ '\n' :: List.replicate 300 'c', ?_, ?_⟩
  · rw [htrace]
    exact List.mem_cons_of_mem _ (List.mem_cons_self _ _)
  · push_neg
    constructor
    · simp only [List.length_append, List.length_cons, List.length_replicate]
      omega
    · exact List.mem_append_right _ (List.mem_cons_self _ _)

/-! ### Chunk reconstruction (C7) -/

lemma filter_dropWhile_isWs (l : List Char) :
    (l.dropWhile isWs).filter (fun ch => !isWs ch) = l.filter (fun ch => !isWs ch) := by
  induction l with
  | nil => rfl
  | cons a t ih =>
    by_cases ha : isWs a
    · rw [List.dropWhile_cons_of_pos ha, ih, List.filter_cons_of_neg (by simp [ha])]
    · rw [List.dropWhile_cons_of_neg ha]

lemma filter_trim (l : List Char) :
    (trim l).filter (fun ch => !isWs ch) = l.filter (fun ch => !isWs ch) := by
  rw [trim, List.filter_reverse, filter_dropWhile_isWs, List.filter_reverse,
    List.reverse_reverse, filter_dropWhile_isWs]

lemma filter_eq_nil_of_trim_eq_nil {l : List Char} (h : trim l = []) :
    l.filter (fun ch => !isWs ch) = [] := by
  rw [← filter_trim, h]
  rfl

lemma filter_flatten_splitOnNl (l : List Char) :
    ((splitOnNl l).map (fun s => s.filter (fun ch => !isWs ch))).flatten =
      l.filter (fun ch => !isWs ch) := by
  induction l with
  | nil => rfl
  | cons c rest ih =>
    rw [splitOnNl]
    by_cases hc : c = '\n'
    · rw [if_pos hc, List.map_cons, List.flatten_cons, ih,
        List.filter_cons_of_neg (by simp [hc, isWs])]
      rfl
    · rw [if_neg hc]
      cases hsp : splitOnNl rest with
      | nil => exact absurd hsp (splitOnNl_ne_nil rest)
      | cons s ss =>
        rw [hsp] at ih
        rw [List.headD_cons, List.tail_cons, List.map_cons, List.flatten_cons,
          List.filter_cons, List.filter_cons]
        rw [List.map_cons, List.flatten_cons] at ih
        by_cases hk : (!isWs c) = true
        · rw [if_pos hk, if_pos hk, List.cons_append, ih]
        · rw [if_neg hk, if_neg hk, ih]

lemma chunkLoop_filter :
    ∀ (lines : List (List Char)) (cur : List Char) (acc : List (List Char)),
      ((chunkLoop lines cur acc).map (fun s => s.filter (fun ch => !isWs ch))).flatten =
        ((acc.map (fun s => s.filter (fun ch => !isWs ch))).flatten ++
          cur.filter (fun ch => !isWs ch)) ++
          ((lines.map (fun s => s.filter (fun ch => !isWs ch))).flatten) := by
  have haccStep : ∀ (cur : List Char) (acc : List (List Char)),
      (((if trim cur ≠ [] then acc ++ [trim cur] else acc).map
          (fun s => s.filter (fun ch => !isWs ch))).flatten) =
        (acc.map (fun s => s.filter (fun ch => !isWs ch))).flatten ++
          cur.filter (fun ch => !isWs ch) := by
    intro cur acc
    by_cases ht : trim cur ≠ []
    · rw [if_pos ht, List.map_append, List.flatten_append, List.map_singleton,
        List.flatten_singleton, filter_trim]
    · rw [if_neg ht, filter_eq_nil_of_trim_eq_nil (not_not.mp ht), List.append_nil]
  intro lines
  induction lines with
  | nil =>
    intro cur acc
    rw [chunkLoop, haccStep cur acc]
    simp only [List.map_nil, List.flatten_nil, List.append_nil]
  | cons line rest ih =>
    intro cur acc
    rw [chunkLoop]
    by_cases hbig : cur.length + line.length > 800
    · rw [if_pos hbig, ih, haccStep cur acc, List.map_cons, List.flatten_cons]
      simp only [List.append_assoc]
    · rw [if_neg hbig, ih, List.filter_append, List.filter_cons_of_neg (by simp [isWs]),
        List.map_cons, List.flatten_cons]
      simp only [List.append_assoc]

/-- C7: for every document, concatenating the text of all chunks produced
by the chunker, in output order, reconstructs the original content modulo
whitespace at line boundaries (the two sides agree after erasing
whitespace characters; only boundary whitespace is ever dropped, by
`trim`, and only the injected newline separators are added), and the
empty document yields zero chunks. -/
theorem c7_chunk_reconstruction :
    (∀ content : List Char,
      ((chunkContent content).map (fun s => s.filter (fun ch => !isWs ch))).flatten =
        content.filter (fun ch => !isWs ch)) ∧
    chunkContent [] = [] := by
  constructor
  · intro content
    rw [chunkContent, chunkLoop_filter, filter_flatten_splitOnNl]
    rfl
  · rfl

/-! ### Ranking (C5) -/

lemma mem_insertStable {ge : α → α → Bool} {x a : α} :
    ∀ {l : List α}, a ∈ insertStable ge x l ↔ a = x ∨ a ∈ l := by
  intro l
  induction l with
  | nil => simp [insertStable]
  | cons y ys ih =>
    rw [insertStable]
    by_cases h : ge x y
    · rw [if_pos h]
      simp [List.mem_cons]
    · rw [if_neg h]
      simp only [List.mem_cons, ih]
      tauto

lemma mem_stableSortBy {ge : α → α → Bool} {a : α} :
    ∀ {l : List α}, a ∈ stableSortBy ge l ↔ a ∈ l := by
  intro l
  induction l with
  | nil => simp [stableSortBy]
  | cons x xs ih =>
    rw [stableSortBy, mem_insertStable]
    simp [List.mem_cons, ih]

lemma insertStable_length {ge : α → α → Bool} (x : α) :
    ∀ l : List α, (insertStable ge x l).length = l.length + 1 := by
  intro l
  induction l with
  | nil => rfl
  | cons y ys ih =>
    rw [insertStable]
    by_cases h : ge x y
    · rw [if_pos h]; rfl
    · rw [if_neg h, List.length_cons, ih]; rfl

lemma stableSortBy_length {ge : α → α → Bool} :
    ∀ l : List α, (stableSortBy ge l).length = l.length := by
  intro l
  induction l with
  | nil => rfl
  | cons x xs ih => rw [stableSortBy, insertStable_length, ih]; rfl

lemma insertStable_sorted {ge : α → α → Bool} {P : α → Prop}
    (htot : ∀ a b, ge a b = true ∨ ge b a = true)
    (htrans : ∀ a b c, P a → P b → P c → ge a b = true → ge b c = true → ge a c = true)
    {x : α} (hPx : P x) :
    ∀ {l : List α}, (∀ a ∈ l, P a) → l.Pairwise (fun a b => ge a b = true) →
      (insertStable ge x l).Pairwise (fun a b => ge a b = true) := by
  intro l
  induction l with
  | nil => intro _ _; simp [insertStable]
  | cons y ys ih =>
    intro hPl hl
    have hPy : P y := hPl y (List.mem_cons_self y ys)
    have hPys : ∀ a ∈ ys, P a := fun a ha => hPl a (List.mem_cons_of_mem y ha)
    rcases List.pairwise_cons.mp hl with ⟨hy, hys⟩
    rw [insertStable]
    by_cases h : ge x y
    · rw [if_pos h]
      refine List.pairwise_cons.mpr ⟨?_, hl⟩
      intro b hb
      rcases List.mem_cons.mp hb with rfl | hb'
      · exact h
      · exact htrans x y b hPx hPy (hPys b hb') h (hy b hb')
    · rw [if_neg h]
      refine List.pairwise_cons.mpr ⟨?_, ih hPys hys⟩
      intro b hb
      rcases mem_insertStable.mp hb with rfl | hb'
      · rcases htot b y with hby | hyb
        · exact absurd hby (by simpa using h)
        · exact hyb
      · exact hy b hb'

lemma stableSortBy_sorted {ge : α → α → Bool} {P : α → Prop}
    (htot : ∀ a b, ge a b = true ∨ ge b a = true)
    (htrans : ∀ a b c, P a → P b → P c → ge a b = true → ge b c = true → ge a c = true) :
    ∀ {l : List α}, (∀ a ∈ l, P a) →
      (stableSortBy ge l).Pairwise (fun a b => ge a b = true) := by
  intro l
  induction l with
  | nil => intro _; simp [stableSortBy]
  | cons x xs ih =>
    intro hPl
    have hPx : P x := hPl x (List.mem_cons_self x xs)
    have hPxs : ∀ a ∈ xs, P a := fun a ha => hPl a (List.mem_cons_of_mem x ha)
    rw [stableSortBy]
    exact insertStable_sorted htot htrans hPx
      (fun a ha => hPxs a (mem_stableSortBy.mp ha)) (ih hPxs)

lemma insertStable_stable {ge : α → α → Bool} {S : α → α → Prop} {x : α} :
    ∀ {l : List α}, (∀ y ∈ l, S x y) →
      l.Pairwise (fun a b => ge a b = true → ge b a = true → S a b) →
      (insertStable ge x l).Pairwise (fun a b => ge a b = true → ge b a = true → S a b) := by
  intro l
  induction l with
  | nil => intro _ _; simp [insertStable]
  | cons y ys ih =>
    intro hxl hl
    rcases List.pairwise_cons.mp hl with ⟨hy, hys⟩
    rw [insertStable]
    by_cases h : ge x y
    · rw [if_pos h]
      refine List.pairwise_cons.mpr ⟨?_, hl⟩
      intro b hb _ _
      exact hxl b hb
    · rw [if_neg h]
      refine List.pairwise_cons.mpr
        ⟨?_, ih (fun z hz => hxl z (List.mem_cons_of_mem y hz)) hys⟩
      intro b hb
      rcases mem_insertStable.mp hb with rfl | hb'
      · intro _ hbx
        exact absurd hbx (by simpa using h)
      · exact hy b hb'

lemma stableSortBy_stable {ge : α → α → Bool} {S : α → α → Prop} :
    ∀ {l : List α}, l.Pairwise S →
      (stableSortBy ge l).Pairwise (fun a b => ge a b = true → ge b a = true → S a b) := by
  intro l
  induction l with
  | nil => intro _; simp [stableSortBy]
  | cons x xs ih =>
    intro hl
    rcases List.pairwise_cons.mp hl with ⟨hx, hxs⟩
    rw [stableSortBy]
    exact insertStable_stable (fun y hy => hx y (mem_stableSortBy.mp hy)) (ih hxs)

lemma insertStable_map (ge : α → α → Bool) (geb : β → β → Bool) (f : α → β)
    (hcomm : ∀ a b, ge a b = geb (f a) (f b)) (x : α) :
    ∀ l : List α, (insertStable ge x l).map f = insertStable geb (f x) (l.map f) := by
  intro l
  induction l with
  | nil => rfl
  | cons y ys ih =>
    rw [insertStable, List.map_cons, insertStable]
    by_cases h : ge x y
    · rw [if_pos h, if_pos (hcomm x y ▸ h), List.map_cons, List.map_cons]
    · rw [if_neg h, if_neg (hcomm x y ▸ h), List.map_cons, ih]

lemma stableSortBy_map (ge : α → α → Bool) (geb : β → β → Bool) (f : α → β)
    (hcomm : ∀ a b, ge a b = geb (f a) (f b)) :
    ∀ l : List α, (stableSortBy ge l).map f = stableSortBy geb (l.map f) := by
  intro l
  induction l with
  | nil => rfl
  | cons x xs ih =>
    rw [stableSortBy, List.map_cons, stableSortBy, insertStable_map ge geb f hcomm, ih]

lemma tagFrom_map_snd : ∀ (n : ℕ) (l : List α), (tagFrom n l).map Prod.snd = l := by
  intro n l
  induction l generalizing n with
  | nil => rfl
  | cons x xs ih => rw [tagFrom, List.map_cons, ih]

lemma tagFrom_fst_ge : ∀ (l : List α) (n : ℕ), ∀ p ∈ tagFrom n l, n ≤ p.1 := by
  intro l
  induction l with
  | nil => intro n p hp; simp [tagFrom] at hp
  | cons x xs ih =>
    intro n p hp
    rcases List.mem_cons.mp hp with rfl | hp'
    · exact le_refl n
    · exact le_trans (Nat.le_succ n) (ih (n + 1) p hp')

lemma tagFrom_pairwise_lt : ∀ (l : List α) (n : ℕ),
    (tagFrom n l).Pairwise (fun a b => a.1 < b.1) := by
  intro l
  induction l with
  | nil => intro n; simp [tagFrom]
  | cons x xs ih =>
    intro n
    rw [tagFrom]
    refine List.pairwise_cons.mpr ⟨?_, ih (n + 1)⟩
    intro p hp
    exact lt_of_lt_of_le (Nat.lt_succ_self n) (tagFrom_fst_ge xs (n + 1) p hp)

lemma scoreGe_total (a b : Option ℚ) : scoreGe a b = true ∨ scoreGe b a = true := by
  cases a with
  | none => left; rfl
  | some x =>
    cases b with
    | none => left; rfl
    | some y =>
      rcases le_total y x with h | h
      · left; exact decide_eq_true h
      · right; exact decide_eq_true h

lemma scoreGe_trans {a b c : Option ℚ} (ha : a.isSome = true) (hb : b.isSome = true)
    (hc : c.isSome = true) (hab : scoreGe a b = true) (hbc : scoreGe b c = true) :
    scoreGe a c = true := by
  obtain ⟨x, rfl⟩ := Option.isSome_iff_exists.mp ha
  obtain ⟨y, rfl⟩ := Option.isSome_iff_exists.mp hb
  obtain ⟨z, rfl⟩ := Option.isSome_iff_exists.mp hc
  simp only [scoreGe, decide_eq_true_eq] at hab hbc ⊢
  exact le_trans hbc hab

lemma scoreGe_of_eq {a b : Option ℚ} (h : a = b) : scoreGe a b = true := by
  subst h
  cases a with
  | none => rfl
  | some x => simp [scoreGe]

lemma scoreAll_length (sqrt : ℚ → ℚ) (q : List ℚ) :
    ∀ (chunks : List TextChunk) (scored : List ScoredChunk),
      scoreAll sqrt q chunks = some scored → scored.length = chunks.length := by
  intro chunks
  induction chunks with
  | nil =>
    intro scored h
    simp only [scoreAll, Option.some.injEq] at h
    subst h; rfl
  | cons c rest ih =>
    intro scored h
    rw [scoreAll] at h
    cases hemb : c.embedding with
    | none => rw [hemb] at h; exact absurd h (by simp)
    | some e =>
      rw [hemb] at h
      cases htail : scoreAll sqrt q rest with
      | none => rw [htail] at h; exact absurd h (by simp)
      | some tail =>
        rw [htail] at h
        simp only [Option.some.injEq] at h
        subst h
        rw [List.length_cons, ih tail htail]
        rfl

/-- C5: on any successfully scored chunk list whose similarity scores are
all defined (no `NaN`), the ranked output is sorted in descending score
order, has length `min 3 (number of chunks)` (`k = 3` is the hard-coded
`slice(0, 3)` bound), and — running the identical comparisons on
position-tagged copies — equal-score ties keep their original corpus
order. -/
theorem c5_ranker (sqrt : ℚ → ℚ) (q : List ℚ) (chunks : List TextChunk)
    (scored : List ScoredChunk)
    (hs : scoreAll sqrt q chunks = some scored)
    (hdef : ∀ s ∈ scored, s.score.isSome = true) :
    (rankList scored).Pairwise (fun a b => scoreGe a.score b.score = true) ∧
    (rankList scored).length = min 3 chunks.length ∧
    (rankTagged scored).map Prod.snd = rankList scored ∧
    (rankTagged scored).Pairwise (fun a b => a.2.score = b.2.score → a.1 < b.1) := by
  refine ⟨?_, ?_, ?_, ?_⟩
  · have hsorted : (stableSortBy (fun a b => scoreGe a.score b.score) scored).Pairwise
        (fun a b => scoreGe a.score b.score = true) :=
      stableSortBy_sorted (P := fun s : ScoredChunk => s.score.isSome = true)
        (fun a b : ScoredChunk => scoreGe_total a.score b.score)
        (fun a b c ha hb hc hab hbc => scoreGe_trans ha hb hc hab hbc)
        hdef
    exact hsorted.sublist (List.take_sublist 3 _)
  · rw [rankList, List.length_take, stableSortBy_length, scoreAll_length sqrt q chunks scored hs]
  · rw [rankTagged, rankList, List.map_take,
      stableSortBy_map (fun a b : ℕ × ScoredChunk => scoreGe a.2.score b.2.score)
        (fun a b : ScoredChunk => scoreGe a.score b.score) Prod.snd (fun a b => rfl)
        (tagFrom 0 scored),
      tagFrom_map_snd]
  · have hstable : (stableSortBy
        (fun a b : ℕ × ScoredChunk => scoreGe a.2.score b.2.score)
        (tagFrom 0 scored)).Pairwise
        (fun a b => scoreGe a.2.score b.2.score = true →
          scoreGe b.2.score a.2.score = true → a.1 < b.1) :=
      stableSortBy_stable (tagFrom_pairwise_lt scored 0)
    have himp : (stableSortBy (fun a b : ℕ × ScoredChunk => scoreGe a.2.score b.2.score)
        (tagFrom 0 scored)).Pairwise (fun a b => a.2.score = b.2.score → a.1 < b.1) := by
      refine hstable.imp ?_
      intro a b hab heq
      exact hab (scoreGe_of_eq heq) (scoreGe_of_eq heq.symm)
    exact himp.sublist (List.take_sublist 3 _)

/-- Closed instance of `c5_ranker` on a one-chunk corpus with an embedded
chunk and a constant-one square root. -/
theorem c5_ranker_witness :
    (rankList [⟨['a'], ['s'], [], cosineSimilarity (fun _ => (1 : ℚ)) [] []⟩]).Pairwise
      (fun a b => scoreGe a.score b.score = true) ∧
    (rankList [⟨['a'], ['s'], [], cosineSimilarity (fun _ => (1 : ℚ)) [] []⟩]).length =
      min 3 ([(⟨['a'], ['s'], some []⟩ : TextChunk)] : List TextChunk).length ∧
    (rankTagged [⟨['a'], ['s'], [], cosineSimilarity (fun _ => (1 : ℚ)) [] []⟩]).map
      Prod.snd = rankList [⟨['a'], ['s'], [], cosineSimilarity (fun _ => (1 : ℚ)) [] []⟩] ∧
    (rankTagged [⟨['a'], ['s'], [], cosineSimilarity (fun _ => (1 : ℚ)) [] []⟩]).Pairwise
      (fun a b => a.2.score = b.2.score → a.1 < b.1) :=
  c5_ranker (fun _ => (1 : ℚ)) [] [⟨['a'], ['s'], some []⟩]
    [⟨['a'], ['s'], [], cosineSimilarity (fun _ => (1 : ℚ)) [] []⟩] rfl
    (by
      intro s hs
      rcases List.mem_singleton.mp hs with rfl
      simp [cosineSimilarity])

end MiniMotor
